import Mathlib

/-!
Verification development for the tmux-op project browser
(crates/apps/tmux-op): a shallow embedding of the project discovery
pipeline (project_finder.rs) and of the interactive selection engine
(ui.rs), together with proofs and refutations of the specified
properties.

Modelling conventions:
* Rust `String` values that are only pushed to / popped from are
  modelled as `List Char` (`push` is append, `pop` is `dropLast`).
* Filesystem paths are modelled by their component lists
  (`FsPath := List String`); the displayed path string is recovered by
  interleaving a separator, mirroring `to_string_lossy`.
* The external fuzzy matcher and the external JSON parser are not part
  of the repository; the matcher is modelled from the spec and the
  parser is a parameter.
-/

/-- A filesystem path, as its list of components. -/
abbrev FsPath := List String

/-- FsPath separator used when a path is rendered as a string. -/
def pathSep : String := "/"

/-- Render a path the way `FsPath::to_string_lossy` renders it. -/
def pathString (p : FsPath) : String := String.intercalate pathSep p

/-- The resolved project record (struct `ProjectInfo`, project_finder.rs).
The Rust `directory: String` holds the rendered path of the project root;
we keep the component list, from which the string is derived. -/
structure ProjectInfo where
  name : String
  language : String
  directory : FsPath
deriving DecidableEq

/-- Boolean subsequence test on character lists: every character of the
first list occurs, in order, in the second. -/
def isSubseq : List Char → List Char → Bool
  | [], _ => true
  | _ :: _, [] => false
  | a :: as, b :: bs => if a = b then isSubseq as bs else isSubseq (a :: as) bs

/-- The characters of a string, lower-cased. -/
def lowerChars (s : String) : List Char := s.data.map Char.toLower

/-- Modelled from the spec: the match score produced by the external
fuzzy matcher (`SkimMatcherV2`, crate fuzzy_matcher) is an
implementation detail ("exact scoring weights are an implementation
detail"); this model scores by target length. No theorem below depends
on the weights, only on the ordering contract. -/
def fuzzyScore (text : String) (_query : List Char) : Int := -(Int.ofNat text.length)

/-- Modelled from the spec: the external fuzzy matcher
(`SkimMatcherV2.fuzzy_match`, crate fuzzy_matcher, not part of this
repository). Per the spec, a candidate matches exactly when the query
characters appear as a case-insensitive subsequence of the target text,
and a match carries an integer score. -/
def fuzzy_match (text : String) (query : List Char) : Option Int :=
  if isSubseq (query.map Char.toLower) (lowerChars text) then some (fuzzyScore text query)
  else none

/-- The text a project is fuzzy-matched against (ui.rs line 116):
`format!("{} {}", proj.name, proj.directory)`. -/
def searchText (p : ProjectInfo) : String := p.name ++ " " ++ pathString p.directory

/-- The selection-engine state (struct `App`, ui.rs lines 45-52). The
`matcher` field is the stateless external matcher and is not part of the
state proper. -/
structure App where
  projects : List ProjectInfo
  selected : Nat
  search_active : Bool
  search_query : List Char
  filtered_indices : List Nat
deriving DecidableEq

/-- `App::new` (ui.rs lines 55-65). -/
def App.new (projects : List ProjectInfo) : App :=
  { projects := projects
    selected := 0
    search_active := false
    search_query := []
    filtered_indices := List.range projects.length }

/-- The cursor computed by the body of `App::next` (ui.rs lines 69-75):
`position(..).unwrap_or(0)` is `(findIdx? ..).getD 0`, and the Rust
index expression is total because `next_pos` is always in range when
the list is non-empty. -/
def nextSelected (l : List Nat) (sel : Nat) : Nat :=
  let current_pos := (l.findIdx? (fun x => x == sel)).getD 0
  let next_pos := (current_pos + 1) % l.length
  l.getD next_pos 0

/-- The cursor computed by the body of `App::previous`
(ui.rs lines 81-91). -/
def prevSelected (l : List Nat) (sel : Nat) : Nat :=
  let current_pos := (l.findIdx? (fun x => x == sel)).getD 0
  let prev_pos := if current_pos > 0 then current_pos - 1 else l.length - 1
  l.getD prev_pos 0

/-- `App::next` (ui.rs lines 67-77): advance the cursor cyclically
within `filtered_indices`. -/
def App.next (a : App) : App :=
  if a.filtered_indices.isEmpty then a
  else { a with selected := nextSelected a.filtered_indices a.selected }

/-- `App::previous` (ui.rs lines 79-93). -/
def App.previous (a : App) : App :=
  if a.filtered_indices.isEmpty then a
  else { a with selected := prevSelected a.filtered_indices a.selected }

/-- The comparator of the re-rank sort (ui.rs line 124):
`sort_by(|a, b| b.0.cmp(&a.0))` orders by descending score. `a` may
stand before `b` exactly when `b`'s score is not larger. -/
def scoreGE (a b : Int × Nat) : Prop := b.1 ≤ a.1

instance : DecidableRel scoreGE := fun a b => inferInstanceAs (Decidable (b.1 ≤ a.1))

/-- The scored candidate list built in `App::filter_projects`
(ui.rs lines 111-121): each project index paired with its match score,
non-matching projects excluded. -/
def scoredProjects (ps : List ProjectInfo) (q : List Char) : List (Int × Nat) :=
  ps.enum.filterMap (fun ip => (fuzzy_match (searchText ip.2) q).map (fun s => (s, ip.1)))

/-- The filtered, ranked view recomputed by `App::filter_projects`
(ui.rs lines 105-127). Rust's `sort_by` is a stable sort, and a stable
sort by a total preorder is unique, so it is modelled by
`List.insertionSort` with the same comparator. -/
def filteredOrder (ps : List ProjectInfo) (q : List Char) : List Nat :=
  if q.isEmpty then List.range ps.length
  else ((scoredProjects ps q).insertionSort scoreGE).map Prod.snd

/-- `App::filter_projects` (ui.rs lines 105-132). On an empty query it
returns early with the identity ordering, leaving `selected` untouched;
otherwise it recomputes the ranking and moves `selected` to the first
match if one exists. -/
def App.filter_projects (a : App) : App :=
  if a.search_query.isEmpty then
    { a with filtered_indices := List.range a.projects.length }
  else
    let fi := ((scoredProjects a.projects a.search_query).insertionSort scoreGE).map Prod.snd
    { a with filtered_indices := fi, selected := fi.headD a.selected }

/-- `App::update_search` (ui.rs lines 95-98): push one character, then
re-rank. -/
def App.update_search (a : App) (c : Char) : App :=
  App.filter_projects { a with search_query := a.search_query ++ [c] }

/-- `App::backspace_search` (ui.rs lines 100-103): pop one character
(no-op pop on an empty query), then re-rank. -/
def App.backspace_search (a : App) : App :=
  App.filter_projects { a with search_query := a.search_query.dropLast }

/-- The Esc branch of the event loop (ui.rs lines 256-260): leave search
mode, clear the query, re-rank. -/
def App.exit_search (a : App) : App :=
  App.filter_projects { a with search_active := false, search_query := [] }

/-- The '/' branch of the event loop (ui.rs lines 278-280). -/
def App.enter_search (a : App) : App :=
  { a with search_active := true }

/-- The selection made by `App::open_in_tmux` (ui.rs lines 134-166):
the record whose session is launched, `none` when the guard
`self.projects.get(self.selected)` fails and nothing is launched.
The tmux invocations themselves are the external session-launch
collaborator. -/
def App.commit (a : App) : Option ProjectInfo := a.projects[a.selected]?

/-- The selection-engine operations reachable from the event loop
(ui.rs lines 252-287). -/
inductive Op where
  | next : Op
  | previous : Op
  | append : Char → Op
  | backspace : Op
  | exitSearch : Op
  | enterSearch : Op

/-- Apply one event-loop operation to the state. -/
def applyOp (a : App) : Op → App
  | Op.next => a.next
  | Op.previous => a.previous
  | Op.append c => a.update_search c
  | Op.backspace => a.backspace_search
  | Op.exitSearch => a.exit_search
  | Op.enterSearch => a.enter_search

/-- The state after initializing on `ps` and running a sequence of
operations. -/
def runOps (ps : List ProjectInfo) (ops : List Op) : App :=
  ops.foldl applyOp (App.new ps)

/-- The selection-engine state invariant maintained by every operation:
the cursor is a member of the filtered view whenever that view is
non-empty, the cursor is in range of the backing list whenever it is
non-empty, the filtered view only holds in-range indices, and it holds
no duplicates. -/
def AppInv (a : App) : Prop :=
  (a.filtered_indices ≠ [] → a.selected ∈ a.filtered_indices) ∧
  (a.projects ≠ [] → a.selected < a.projects.length) ∧
  (∀ x ∈ a.filtered_indices, x < a.projects.length) ∧
  a.filtered_indices.Nodup

/-! ### The manifest walker and project resolver (project_finder.rs) -/

/-- An abstract filesystem subtree: the walker and the reads are
modelled against this in place of real syscalls. Files carry the
content `fs::read_to_string` would return. -/
inductive FsEntry where
  | file : String → String → FsEntry
  | dir : String → List FsEntry → FsEntry

/-- Base name of an entry (`file_name()`). -/
def FsEntry.name : FsEntry → String
  | .file n _ => n
  | .dir n _ => n

/-- The literal directory name pruned by the walker. -/
def nodeModulesStr : String := "node_modules"

/-- The literal directory name pruned by the walker. -/
def buildStr : String := "build"

/-- The literal directory name pruned by the walker. -/
def targetStr : String := "target"

/-- The literal directory name pruned by the walker. -/
def distStr : String := "dist"

/-- The literal directory name pruned by the walker. -/
def outStr : String := "out"

/-- `IGNORED_DIRS` (project_finder.rs line 10). -/
def IGNORED_DIRS : List String := [nodeModulesStr, buildStr, targetStr, distStr, outStr]

/-- The manifest file name matched by the walker
(project_finder.rs line 49). -/
def manifestName : String := ".dexproject"

/-- All entry paths the walker yields strictly below a directory whose
children are `cs` (paths relative to that directory, each including the
entry's own base name). `filter_entry` (project_finder.rs lines 33-39)
drops any entry whose base name is in `IGNORED_DIRS`; a dropped
directory is not descended into. -/
def walkForest (cs : List FsEntry) : List FsPath :=
  match cs with
  | [] => []
  | FsEntry.file n _ :: rest =>
      (if IGNORED_DIRS.contains n then [] else [[n]]) ++ walkForest rest
  | FsEntry.dir n cs' :: rest =>
      (if IGNORED_DIRS.contains n then []
       else [n] :: (walkForest cs').map (fun p => n :: p)) ++ walkForest rest
termination_by sizeOf cs
decreasing_by all_goals simp_wf <;> omega

/-- All entry paths the walk of a root yields, relative to the root
(the root itself is the starting point, not a result). -/
def walkPaths : FsEntry → List FsPath
  | FsEntry.file n _ => [[n]]
  | FsEntry.dir _ cs => walkForest cs

/-- The collected manifest paths of one root: entries whose base name
equals `.dexproject` (project_finder.rs lines 43-53). -/
def manifestPaths (t : FsEntry) : List FsPath :=
  (walkPaths t).filter (fun p => p.getLast? == some manifestName)

/-- Resolve a relative path against a child list, returning the content
`fs::read_to_string` yields: the content for a file, failure for a
directory or a missing entry. -/
def readIn (cs : List FsEntry) (p : FsPath) : Option String :=
  match cs, p with
  | [], _ => none
  | _, [] => none
  | FsEntry.file n content :: rest, m :: ms =>
      if n = m then (if ms.isEmpty then some content else none)
      else readIn rest (m :: ms)
  | FsEntry.dir n cs' :: rest, m :: ms =>
      if n = m then readIn cs' ms else readIn rest (m :: ms)
termination_by sizeOf cs
decreasing_by all_goals simp_wf <;> omega

/-- Read a path relative to a root entry. -/
def readFile : FsEntry → FsPath → Option String
  | FsEntry.file n c, p => if p = [n] then some c else none
  | FsEntry.dir _ cs, p => readIn cs p

/-- `ProjectConfig` (project_finder.rs lines 12-16): the manifest
schema, both fields optional. -/
structure ProjectConfig where
  language : Option String
  name : Option String
deriving DecidableEq

/-- The language sentinel (project_finder.rs line 76). -/
def unknownStr : String := "UNKNOWN"

/-- Modelled from the spec: Rust's `str::to_uppercase` (standard
library, not part of this repository), which upper-cases the value
character by character. -/
def toUpperStr (s : String) : String := String.mk (s.data.map Char.toUpper)

/-- The diagnostic prefix written on a parse failure
(project_finder.rs line 62). -/
def parseFailPrefix : String := "Failed to parse JSON from "

/-- Empty fallback for a missing parent name
(`unwrap_or_default`, project_finder.rs line 69). -/
def emptyStr : String := ""

/-- Resolution of one manifest (project_finder.rs lines 58-81), given
the outcome of the read (`content?`), the external JSON parser
(`serde_json::from_str`), and the manifest's full path. Returns the
record (if any) and the diagnostics written to stderr: a failed read is
dropped silently by `.ok()`; a failed parse is dropped after an
`eprintln!` naming the path and the cause; on success the name defaults
to the parent directory's base name, the language defaults to the
sentinel and is upper-cased, and the directory is the manifest's parent.
-/
def resolveManifest (parse : String → Except String ProjectConfig)
    (content? : Option String) (p : FsPath) : Option ProjectInfo × List String :=
  match content? with
  | none => (none, [])
  | some content =>
    match parse content with
    | Except.error e => (none, [parseFailPrefix ++ pathString p ++ ": " ++ e])
    | Except.ok config =>
      (some { name := config.name.getD ((p.dropLast.getLast?).getD emptyStr)
              language := toUpperStr (config.language.getD unknownStr)
              directory := p.dropLast }, [])

/-- The scan of one root (one iteration of the outer loop of
`find_project_files`, project_finder.rs lines 28-84): walk, keep the
manifest entries, resolve each independently. Returns the records and
the emitted diagnostics. -/
def scanRoot (parse : String → Except String ProjectConfig) (rootPath : FsPath)
    (t : FsEntry) : List ProjectInfo × List String :=
  let results := (manifestPaths t).map
    (fun rel => resolveManifest parse (readFile t rel) (rootPath ++ rel))
  (results.filterMap Prod.fst, (results.map Prod.snd).flatten)

/-- `find_project_files` (project_finder.rs lines 25-88) over a list of
roots, each given by its absolute path and its subtree. -/
def find_project_files (parse : String → Except String ProjectConfig)
    (roots : List (FsPath × FsEntry)) : List ProjectInfo × List String :=
  ((roots.map (fun rt => (scanRoot parse rt.1 rt.2).1)).flatten,
   (roots.map (fun rt => (scanRoot parse rt.1 rt.2).2)).flatten)

/-- Boolean no-duplicates check on names. -/
def nodupB : List String → Bool
  | [] => true
  | x :: xs => (!(xs.contains x)) && nodupB xs

/-- Well-formedness of a child list as a real filesystem provides it:
inside every directory, sibling base names are distinct. -/
def wfbForest (cs : List FsEntry) : Bool :=
  match cs with
  | [] => true
  | FsEntry.file _ _ :: rest => wfbForest rest
  | FsEntry.dir _ cs' :: rest =>
      (nodupB (cs'.map FsEntry.name) && wfbForest cs') && wfbForest rest
termination_by sizeOf cs
decreasing_by all_goals simp_wf <;> omega

/-- Well-formedness of a root entry. -/
def wfb : FsEntry → Bool
  | FsEntry.file _ _ => true
  | FsEntry.dir _ cs => nodupB (cs.map FsEntry.name) && wfbForest cs

/-! ### Concrete inputs used by witnesses and counterexamples -/

/-- Fixed strings for concrete scenarios. -/
def aaStr : String := "aa"

/-- Fixed string for concrete scenarios. -/
def xStr : String := "x"

/-- Fixed string for concrete scenarios. -/
def daStr : String := "da"

/-- Fixed string for concrete scenarios. -/
def dxStr : String := "dx"

/-- Fixed string for concrete scenarios. -/
def abStr : String := "ab"

/-- Fixed string for concrete scenarios. -/
def baStr : String := "ba"

/-- Fixed string for concrete scenarios. -/
def dStr : String := "d"

/-- Fixed string for concrete scenarios. -/
def eStr : String := "e"

/-- Fixed string for concrete scenarios. -/
def rStr : String := "r"

/-- Fixed string for concrete scenarios. -/
def aStr : String := "a"

/-- Fixed string for concrete scenarios. -/
def bStr : String := "b"

/-- Fixed string for concrete scenarios. -/
def okStr : String := "ok"

/-- Fixed string for concrete scenarios. -/
def badStr : String := "bad"

/-- Fixed string for concrete scenarios. -/
def rustLC : String := "rust"

/-- A project whose search text holds no letter x. -/
def pA : ProjectInfo := { name := aaStr, language := emptyStr, directory := [daStr] }

/-- A project whose search text holds the letter x. -/
def pX : ProjectInfo := { name := xStr, language := emptyStr, directory := [dxStr] }

/-- First of two projects with equal match scores against the query a. -/
def pT1 : ProjectInfo := { name := abStr, language := emptyStr, directory := [dStr] }

/-- Second of two projects with equal match scores against the query a. -/
def pT2 : ProjectInfo := { name := baStr, language := emptyStr, directory := [eStr] }

/-- A root holding a manifest inside node_modules beside a valid
project. -/
def tEx : FsEntry :=
  FsEntry.dir rStr
    [FsEntry.dir nodeModulesStr [FsEntry.dir xStr [FsEntry.file manifestName okStr]],
     FsEntry.dir aStr [FsEntry.file manifestName okStr]]

/-- A root holding one manifest entry whose read fails (a directory
named like the manifest) and one whose read succeeds. -/
def tReadFail : FsEntry :=
  FsEntry.dir rStr
    [FsEntry.dir aStr [FsEntry.dir manifestName []],
     FsEntry.dir bStr [FsEntry.file manifestName okStr]]

/-- A parser accepting exactly the content of the readable manifests in
the concrete scenarios. -/
def parseOkOnly : String → Except String ProjectConfig :=
  fun s => if s = okStr then Except.ok { language := none, name := none } else Except.error badStr

/-- A root with a single manifest, used to exhibit duplicate records
under duplicated roots. -/
def tDup : FsEntry := FsEntry.dir rStr [FsEntry.dir aStr [FsEntry.file manifestName okStr]]

/-- A well-formed root with two manifests in distinct directories. -/
def tTwo : FsEntry :=
  FsEntry.dir rStr
    [FsEntry.dir aStr [FsEntry.file manifestName okStr],
     FsEntry.dir bStr [FsEntry.file manifestName okStr]]

/-! ### Basic rewriting of the engine operations -/

theorem fp_projects (a : App) : (App.filter_projects a).projects = a.projects := by
  unfold App.filter_projects
  split <;> rfl

theorem fp_query (a : App) : (App.filter_projects a).search_query = a.search_query := by
  unfold App.filter_projects
  split <;> rfl

theorem fp_filtered (a : App) :
    (App.filter_projects a).filtered_indices = filteredOrder a.projects a.search_query := by
  unfold App.filter_projects filteredOrder
  by_cases h : a.search_query.isEmpty <;> simp [h]

theorem fp_selected_empty (a : App) (h : a.search_query.isEmpty = true) :
    (App.filter_projects a).selected = a.selected := by
  unfold App.filter_projects
  simp [h]

theorem fp_selected_not_empty (a : App) (h : ¬ a.search_query.isEmpty = true) :
    (App.filter_projects a).selected =
      (filteredOrder a.projects a.search_query).headD a.selected := by
  unfold App.filter_projects filteredOrder
  simp [h]

theorem next_projects (a : App) : a.next.projects = a.projects := by
  unfold App.next
  split <;> rfl

theorem next_filtered (a : App) : a.next.filtered_indices = a.filtered_indices := by
  unfold App.next
  split <;> rfl

theorem prev_projects (a : App) : a.previous.projects = a.projects := by
  unfold App.previous
  split <;> rfl

theorem prev_filtered (a : App) : a.previous.filtered_indices = a.filtered_indices := by
  unfold App.previous
  split <;> rfl

/-! ### The scored candidate list -/

theorem mem_scoredProjects {ps : List ProjectInfo} {q : List Char} {s : Int} {i : Nat} :
    (s, i) ∈ scoredProjects ps q ↔
      ∃ p, ps[i]? = some p ∧ fuzzy_match (searchText p) q = some s := by
  simp only [scoredProjects, List.mem_filterMap, Option.map_eq_some', Prod.mk.injEq, Prod.exists]
  constructor
  · rintro ⟨j, p, hj, v, hv, rfl, rfl⟩
    exact ⟨p, List.mk_mem_enum_iff_getElem?.mp hj, hv⟩
  · rintro ⟨p, hp, hf⟩
    exact ⟨i, p, List.mk_mem_enum_iff_getElem?.mpr hp, s, hf, rfl, rfl⟩

theorem scoredProjects_pairwise (ps : List ProjectInfo) (q : List Char) :
    (scoredProjects ps q).Pairwise (fun x y => x.2 < y.2) := by
  apply List.Pairwise.filterMap
    (R := fun x y : Nat × ProjectInfo => x.1 < y.1)
  · intro a b hab x hx y hy
    simp only [Option.mem_def, Option.map_eq_some'] at hx hy
    obtain ⟨_, _, rfl⟩ := hx
    obtain ⟨_, _, rfl⟩ := hy
    exact hab
  · rw [List.pairwise_iff_getElem]
    intro i j hi hj hij
    rw [List.enum_eq_enumFrom] at hi hj
    simp only [List.enum_eq_enumFrom, List.getElem_enumFrom]
    simpa using hij

theorem scored_snd_lt {ps : List ProjectInfo} {q : List Char} {x : Int × Nat}
    (h : x ∈ scoredProjects ps q) : x.2 < ps.length := by
  obtain ⟨s, i⟩ := x
  obtain ⟨p, hp, -⟩ := mem_scoredProjects.mp h
  exact (List.getElem?_eq_some.mp hp).1

/-! ### Navigation arithmetic -/

theorem getD_eq_getElem_of_lt {l : List Nat} {i : Nat} (h : i < l.length) (d : Nat) :
    l.getD i d = l[i] := by
  rw [List.getD_eq_getElem?_getD, List.getElem?_eq_getElem h]
  rfl

theorem getD_mem_of_lt {l : List Nat} {i : Nat} (h : i < l.length) (d : Nat) :
    l.getD i d ∈ l := by
  rw [getD_eq_getElem_of_lt h d]
  exact List.getElem_mem h

theorem findIdx_beq_getD {l : List Nat} {sel : Nat} (hmem : sel ∈ l) :
    (l.findIdx? (fun x => x == sel)).getD 0 = l.findIdx (fun x => x == sel) := by
  rw [List.findIdx?_eq_some_of_exists ⟨sel, hmem, by simp⟩]
  rfl

theorem nextSelected_eq {l : List Nat} {sel : Nat} (hmem : sel ∈ l) :
    nextSelected l sel = l.getD ((l.findIdx (fun x => x == sel) + 1) % l.length) 0 := by
  unfold nextSelected
  rw [findIdx_beq_getD hmem]

theorem prevSelected_eq {l : List Nat} {sel : Nat} (hmem : sel ∈ l) :
    prevSelected l sel =
      l.getD
        (if l.findIdx (fun x => x == sel) > 0 then l.findIdx (fun x => x == sel) - 1
         else l.length - 1) 0 := by
  unfold prevSelected
  rw [findIdx_beq_getD hmem]

theorem nextSelected_mem {l : List Nat} (sel : Nat) (h : l ≠ []) : nextSelected l sel ∈ l := by
  unfold nextSelected
  exact getD_mem_of_lt (Nat.mod_lt _ (List.length_pos.mpr h)) 0

theorem findIdx_getD_lt {l : List Nat} (sel : Nat) (h : l ≠ []) :
    (l.findIdx? (fun x => x == sel)).getD 0 < l.length := by
  cases hfi : l.findIdx? (fun x => x == sel) with
  | none => simpa using List.length_pos.mpr h
  | some i =>
    have := (List.findIdx?_eq_some_iff_findIdx_eq.mp hfi).1
    simpa using this

theorem prevSelected_mem {l : List Nat} (sel : Nat) (h : l ≠ []) : prevSelected l sel ∈ l := by
  unfold prevSelected
  have hlen : 0 < l.length := List.length_pos.mpr h
  have hcp : (l.findIdx? (fun x => x == sel)).getD 0 < l.length := findIdx_getD_lt sel h
  set cp := (l.findIdx? (fun x => x == sel)).getD 0 with hcpdef
  by_cases hc : cp > 0
  · simp only [hc, if_true]
    exact getD_mem_of_lt (by omega) 0
  · simp only [hc, if_false]
    exact getD_mem_of_lt (by omega) 0

theorem nodup_findIdx_getElem {l : List Nat} (hnd : l.Nodup) {j : Nat} (hj : j < l.length) :
    l.findIdx (fun x => x == l[j]) = j := by
  rw [List.findIdx_eq hj]
  refine ⟨by simp, fun k hk => ?_⟩
  have hne : l[k] ≠ l[j] := by
    intro he
    have := (hnd.getElem_inj_iff).mp he
    omega
  simpa using hne

theorem prev_next_round {l : List Nat} {sel : Nat} (hne : l ≠ []) (hmem : sel ∈ l)
    (hnd : l.Nodup) : prevSelected l (nextSelected l sel) = sel := by
  have hlen : 0 < l.length := List.length_pos.mpr hne
  set pos := l.findIdx (fun x => x == sel) with hposdef
  have hposlt : pos < l.length := List.findIdx_lt_length.mpr ⟨sel, hmem, by simp⟩
  have hgetpos : l[pos] = sel := by
    have h1 := @List.findIdx_getElem _ (fun x => x == sel) l hposlt
    simpa using h1
  set np := (pos + 1) % l.length with hnpdef
  have hnplt : np < l.length := Nat.mod_lt _ hlen
  have hnext : nextSelected l sel = l[np] := by
    rw [nextSelected_eq hmem, ← hposdef, ← hnpdef, getD_eq_getElem_of_lt hnplt 0]
  have hfind2 : l.findIdx (fun x => x == l[np]) = np := nodup_findIdx_getElem hnd hnplt
  have hmem2 : l[np] ∈ l := List.getElem_mem hnplt
  rw [hnext, prevSelected_eq hmem2, hfind2]
  rcases Nat.lt_or_ge (pos + 1) l.length with hLt | hGe
  · have hnp : np = pos + 1 := by rw [hnpdef, Nat.mod_eq_of_lt hLt]
    rw [hnp]
    simp only [gt_iff_lt, Nat.succ_sub_one, if_pos (Nat.succ_pos pos)]
    rw [getD_eq_getElem_of_lt hposlt 0, hgetpos]
  · have hEq : pos + 1 = l.length := by omega
    have hnp : np = 0 := by rw [hnpdef, hEq, Nat.mod_self]
    rw [hnp]
    simp only [gt_iff_lt, Nat.lt_irrefl, if_false]
    have hlp : l.length - 1 = pos := by omega
    rw [hlp, getD_eq_getElem_of_lt hposlt 0, hgetpos]

theorem next_prev_round {l : List Nat} {sel : Nat} (hne : l ≠ []) (hmem : sel ∈ l)
    (hnd : l.Nodup) : nextSelected l (prevSelected l sel) = sel := by
  have hlen : 0 < l.length := List.length_pos.mpr hne
  set pos := l.findIdx (fun x => x == sel) with hposdef
  have hposlt : pos < l.length := List.findIdx_lt_length.mpr ⟨sel, hmem, by simp⟩
  have hgetpos : l[pos] = sel := by
    have h1 := @List.findIdx_getElem _ (fun x => x == sel) l hposlt
    simpa using h1
  set pp := if pos > 0 then pos - 1 else l.length - 1 with hppdef
  have hpplt : pp < l.length := by
    rw [hppdef]
    split <;> omega
  have hprev : prevSelected l sel = l[pp] := by
    rw [prevSelected_eq hmem, ← hposdef, ← hppdef, getD_eq_getElem_of_lt hpplt 0]
  have hfind2 : l.findIdx (fun x => x == l[pp]) = pp := nodup_findIdx_getElem hnd hpplt
  have hmem2 : l[pp] ∈ l := List.getElem_mem hpplt
  rw [hprev, nextSelected_eq hmem2, hfind2]
  rcases Nat.eq_zero_or_pos pos with hz | hp
  · have hpp : pp = l.length - 1 := by
      rw [hppdef, hz]
      simp
    have hmod : (pp + 1) % l.length = pos := by
      rw [hpp, hz]
      have : l.length - 1 + 1 = l.length := by omega
      rw [this, Nat.mod_self]
    rw [hmod, getD_eq_getElem_of_lt hposlt 0, hgetpos]
  · have hpp : pp = pos - 1 := by rw [hppdef, if_pos hp]
    have hmod : (pp + 1) % l.length = pos := by
      rw [hpp]
      have : pos - 1 + 1 = pos := by omega
      rw [this, Nat.mod_eq_of_lt hposlt]
    rw [hmod, getD_eq_getElem_of_lt hposlt 0, hgetpos]

/-! ### The filtered view -/

theorem mem_filteredOrder {ps : List ProjectInfo} {q : List Char} {i : Nat}
    (h : ¬ q.isEmpty = true) :
    i ∈ filteredOrder ps q ↔ ∃ s, (s, i) ∈ scoredProjects ps q := by
  unfold filteredOrder
  rw [if_neg h, List.mem_map]
  constructor
  · rintro ⟨⟨s, j⟩, hmem, rfl⟩
    exact ⟨s, (List.perm_insertionSort scoreGE _).mem_iff.mp hmem⟩
  · rintro ⟨s, hmem⟩
    exact ⟨(s, i), (List.perm_insertionSort scoreGE _).mem_iff.mpr hmem, rfl⟩

theorem scoredProjects_snd_nodup (ps : List ProjectInfo) (q : List Char) :
    ((scoredProjects ps q).map Prod.snd).Nodup := by
  have hp : ((scoredProjects ps q).map Prod.snd).Pairwise (fun x y => x < y) :=
    (scoredProjects_pairwise ps q).map Prod.snd (fun a b h => h)
  exact hp.imp Nat.ne_of_lt

theorem filteredOrder_nodup (ps : List ProjectInfo) (q : List Char) :
    (filteredOrder ps q).Nodup := by
  unfold filteredOrder
  split
  · exact List.nodup_range _
  · have hperm : List.Perm (((scoredProjects ps q).insertionSort scoreGE).map Prod.snd)
        ((scoredProjects ps q).map Prod.snd) :=
      (List.perm_insertionSort scoreGE _).map _
    exact hperm.nodup_iff.mpr (scoredProjects_snd_nodup ps q)

theorem filteredOrder_lt_length {ps : List ProjectInfo} {q : List Char} {i : Nat}
    (h : i ∈ filteredOrder ps q) : i < ps.length := by
  unfold filteredOrder at h
  split at h
  · exact List.mem_range.mp h
  · rw [List.mem_map] at h
    obtain ⟨x, hx, rfl⟩ := h
    exact scored_snd_lt ((List.perm_insertionSort scoreGE _).mem_iff.mp hx)

theorem headD_mem_of_ne_nil {l : List Nat} (h : l ≠ []) (d : Nat) : l.headD d ∈ l := by
  cases l with
  | nil => exact absurd rfl h
  | cons x xs => exact List.mem_cons_self _ _

/-! ### Invariant preservation -/

theorem appInv_new (ps : List ProjectInfo) : AppInv (App.new ps) := by
  unfold AppInv
  refine ⟨?_, ?_, ?_, ?_⟩
  · show List.range ps.length ≠ [] → (0 : Nat) ∈ List.range ps.length
    intro h
    have hlen : ps.length ≠ 0 := by simpa using h
    exact List.mem_range.mpr (by omega)
  · show ps ≠ [] → 0 < ps.length
    exact fun h => List.length_pos.mpr h
  · show ∀ x ∈ List.range ps.length, x < ps.length
    exact fun x hx => List.mem_range.mp hx
  · show (List.range ps.length).Nodup
    exact List.nodup_range _

theorem appInv_filter (a : App) (h : AppInv a) : AppInv (App.filter_projects a) := by
  obtain ⟨h1, h2, h3, h4⟩ := h
  unfold AppInv
  rw [fp_filtered a, fp_projects a]
  refine ⟨?_, ?_, fun x hx => filteredOrder_lt_length hx, filteredOrder_nodup _ _⟩
  · intro hne
    by_cases hq : a.search_query.isEmpty = true
    · rw [fp_selected_empty a hq]
      unfold filteredOrder at hne ⊢
      rw [if_pos hq] at hne ⊢
      have hlen : a.projects.length ≠ 0 := by simpa using hne
      have hp : a.projects ≠ [] := by
        intro he
        exact hlen (by simp [he])
      exact List.mem_range.mpr (h2 hp)
    · rw [fp_selected_not_empty a hq]
      exact headD_mem_of_ne_nil hne _
  · intro hps
    by_cases hq : a.search_query.isEmpty = true
    · rw [fp_selected_empty a hq]
      exact h2 hps
    · rw [fp_selected_not_empty a hq]
      by_cases hne : filteredOrder a.projects a.search_query = []
      · rw [hne]
        exact h2 hps
      · exact filteredOrder_lt_length (headD_mem_of_ne_nil hne _)

theorem appInv_next (a : App) (h : AppInv a) : AppInv a.next := by
  obtain ⟨h1, h2, h3, h4⟩ := h
  unfold App.next
  by_cases he : a.filtered_indices.isEmpty
  · rw [if_pos he]
    exact ⟨h1, h2, h3, h4⟩
  · rw [if_neg he]
    have hne : a.filtered_indices ≠ [] := by simpa [List.isEmpty_iff] using he
    have hmem : nextSelected a.filtered_indices a.selected ∈ a.filtered_indices :=
      nextSelected_mem a.selected hne
    exact ⟨fun _ => hmem, fun _ => h3 _ hmem, h3, h4⟩

theorem appInv_prev (a : App) (h : AppInv a) : AppInv a.previous := by
  obtain ⟨h1, h2, h3, h4⟩ := h
  unfold App.previous
  by_cases he : a.filtered_indices.isEmpty
  · rw [if_pos he]
    exact ⟨h1, h2, h3, h4⟩
  · rw [if_neg he]
    have hne : a.filtered_indices ≠ [] := by simpa [List.isEmpty_iff] using he
    have hmem : prevSelected a.filtered_indices a.selected ∈ a.filtered_indices :=
      prevSelected_mem a.selected hne
    exact ⟨fun _ => hmem, fun _ => h3 _ hmem, h3, h4⟩

theorem appInv_applyOp (a : App) (o : Op) (h : AppInv a) : AppInv (applyOp a o) := by
  cases o with
  | next => exact appInv_next a h
  | previous => exact appInv_prev a h
  | append c => exact appInv_filter _ h
  | backspace => exact appInv_filter _ h
  | exitSearch => exact appInv_filter _ h
  | enterSearch => exact h

theorem appInv_runOps (ps : List ProjectInfo) (ops : List Op) : AppInv (runOps ps ops) := by
  unfold runOps
  suffices hgen : ∀ a : App, AppInv a → AppInv (ops.foldl applyOp a) from
    hgen _ (appInv_new ps)
  induction ops with
  | nil => exact fun a ha => ha
  | cons o os ih => exact fun a ha => ih _ (appInv_applyOp a o ha)

/-- C6: whenever `filteredOrder` is non-empty after any completed
sequence of operations (initialize, advance, retreat, appendToQuery,
removeLastFromQuery, exitSearch), the cursor is a member of
`filteredOrder`. -/
theorem c6_cursor_in_filtered (ps : List ProjectInfo) (ops : List Op)
    (h : (runOps ps ops).filtered_indices ≠ []) :
    (runOps ps ops).selected ∈ (runOps ps ops).filtered_indices :=
  (appInv_runOps ps ops).1 h

/-- Witness for C6 at a concrete state. -/
theorem c6_cursor_in_filtered_witness :
    (runOps [pA] [Op.next]).selected ∈ (runOps [pA] [Op.next]).filtered_indices :=
  c6_cursor_in_filtered [pA] [Op.next] (by decide)

/-- C10: from every reachable selection state whose `filteredOrder` is
non-empty and contains the cursor, advance then retreat restores the
cursor, and retreat then advance does too (the two navigation
operations are mutually inverse, including across the wrap-around). -/
theorem c10_nav_inverse (ps : List ProjectInfo) (ops : List Op)
    (hne : (runOps ps ops).filtered_indices ≠ [])
    (hmem : (runOps ps ops).selected ∈ (runOps ps ops).filtered_indices) :
    (runOps ps ops).next.previous.selected = (runOps ps ops).selected ∧
    (runOps ps ops).previous.next.selected = (runOps ps ops).selected := by
  have hnd : (runOps ps ops).filtered_indices.Nodup := (appInv_runOps ps ops).2.2.2
  set a := runOps ps ops with ha
  have hemp : a.filtered_indices.isEmpty = false := by simpa [List.isEmpty_iff] using hne
  constructor
  · have hstep : a.next = { a with selected := nextSelected a.filtered_indices a.selected } := by
      unfold App.next
      rw [hemp]
      simp
    rw [hstep]
    have hstep2 : ({ a with selected := nextSelected a.filtered_indices a.selected } : App).previous =
        { a with selected :=
            prevSelected a.filtered_indices (nextSelected a.filtered_indices a.selected) } := by
      unfold App.previous
      rw [show ({ a with selected := nextSelected a.filtered_indices a.selected } : App).filtered_indices = a.filtered_indices from rfl, hemp]
      simp
    rw [hstep2]
    exact prev_next_round hne hmem hnd
  · have hstep : a.previous = { a with selected := prevSelected a.filtered_indices a.selected } := by
      unfold App.previous
      rw [hemp]
      simp
    rw [hstep]
    have hstep2 : ({ a with selected := prevSelected a.filtered_indices a.selected } : App).next =
        { a with selected :=
            nextSelected a.filtered_indices (prevSelected a.filtered_indices a.selected) } := by
      unfold App.next
      rw [show ({ a with selected := prevSelected a.filtered_indices a.selected } : App).filtered_indices = a.filtered_indices from rfl, hemp]
      simp
    rw [hstep2]
    exact next_prev_round hne hmem hnd

/-- Witness for C10 at a concrete state with two visible projects. -/
theorem c10_nav_inverse_witness :
    (runOps [pA, pX] []).next.previous.selected = (runOps [pA, pX] []).selected ∧
    (runOps [pA, pX] []).previous.next.selected = (runOps [pA, pX] []).selected :=
  c10_nav_inverse [pA, pX] [] (by decide) (by decide)

/-! ### Commit and cursor-reset behavior -/

theorem headD_of_head? {l : List Nat} {k d : Nat} (h : l.head? = some k) : l.headD d = k := by
  cases l with
  | nil => cases h
  | cons x xs =>
    simp only [List.head?_cons, Option.some.injEq] at h
    simpa using h

/-- Counterexample to C1 as stated: after typing a query that matches
nothing, `filteredOrder` is empty while `allProjects` is not, yet
`commit()` still returns (and would launch) the stale record. -/
theorem c1_counterexample :
    (runOps [pA] [Op.append 'z']).filtered_indices = [] ∧
    (runOps [pA] [Op.append 'z']).projects ≠ [] ∧
    (runOps [pA] [Op.append 'z']).commit = some pA := by decide

/-- C1 (amended): `commit()` does not consult `filteredOrder`; it
returns nothing only when the cursor is out of range of `allProjects`
(in particular when `allProjects` is empty). When `filteredOrder` is
empty but `allProjects` is non-empty and the stale cursor is in range,
`commit()` still returns the record at the stale cursor. -/
theorem c1_amended_commit (a : App) :
    (a.projects = [] → a.commit = none) ∧
    (a.filtered_indices = [] → a.projects ≠ [] → a.selected < a.projects.length →
      ∃ p, a.commit = some p) := by
  constructor
  · intro h
    unfold App.commit
    rw [h]
    simp
  · intro _ _ hlt
    unfold App.commit
    exact ⟨a.projects[a.selected], List.getElem?_eq_getElem hlt⟩

/-- Witness for the amended C1 at a concrete unreachable-filter state. -/
theorem c1_amended_commit_witness :
    ∃ p, (runOps [pA] [Op.append 'z']).commit = some p :=
  (c1_amended_commit (runOps [pA] [Op.append 'z'])).2 (by decide) (by decide) (by decide)

/-- Counterexample to C2 as stated: removing the last query character
(emptying the query) re-ranks to the identity order, whose first
element is 0, but the cursor stays at 1. -/
theorem c2_counterexample :
    (runOps [pA, pX] [Op.append 'x', Op.backspace]).filtered_indices.head? = some 0 ∧
    (runOps [pA, pX] [Op.append 'x', Op.backspace]).filtered_indices ≠ [] ∧
    (runOps [pA, pX] [Op.append 'x', Op.backspace]).selected = 1 := by decide

/-- C2 (amended): after a re-rank whose query is non-empty
(appendToQuery always, removeLastFromQuery when a non-empty query
remains), the cursor equals the first element of the new
`filteredOrder` whenever that view is non-empty; a re-rank whose query
is empty (removeLastFromQuery emptying it, or exitSearch) restores the
identity order but leaves the cursor unchanged. -/
theorem c2_amended_rerank (a : App) (c : Char) :
    (∀ k, (a.update_search c).filtered_indices.head? = some k →
      (a.update_search c).selected = k) ∧
    (¬ a.search_query.dropLast.isEmpty = true →
      ∀ k, a.backspace_search.filtered_indices.head? = some k →
        a.backspace_search.selected = k) ∧
    (a.search_query.dropLast.isEmpty = true →
      a.backspace_search.selected = a.selected) ∧
    (a.exit_search.selected = a.selected) ∧
    (a.exit_search.filtered_indices = List.range a.projects.length) := by
  refine ⟨?_, ?_, ?_, ?_, ?_⟩
  · intro k hk
    unfold App.update_search at hk ⊢
    set b : App := { a with search_query := a.search_query ++ [c] } with hb
    have hq : ¬ b.search_query.isEmpty = true := by simp [hb]
    rw [fp_filtered] at hk
    rw [fp_selected_not_empty b hq]
    exact headD_of_head? hk
  · intro hq k hk
    unfold App.backspace_search at hk ⊢
    set b : App := { a with search_query := a.search_query.dropLast } with hb
    rw [fp_filtered] at hk
    rw [fp_selected_not_empty b hq]
    exact headD_of_head? hk
  · intro hq
    unfold App.backspace_search
    exact fp_selected_empty _ hq
  · unfold App.exit_search
    exact fp_selected_empty _ (by simp)
  · unfold App.exit_search
    rw [fp_filtered]
    unfold filteredOrder
    simp

/-- Witness for the amended C2: typing x moves the cursor to the top
match. -/
theorem c2_amended_rerank_witness :
    ((App.new [pA, pX]).update_search 'x').selected = 1 :=
  (c2_amended_rerank (App.new [pA, pX]) 'x').1 1 (by decide)

/-! ### Fuzzy-match structure -/

theorem isSubseq_iff_sublist : ∀ (a b : List Char), isSubseq a b = true ↔ List.Sublist a b := by
  intro a b
  induction b generalizing a with
  | nil =>
    cases a with
    | nil => simp [isSubseq]
    | cons x xs => simp [isSubseq]
  | cons y ys ih =>
    cases a with
    | nil => simp [isSubseq, List.nil_sublist]
    | cons x xs =>
      by_cases hxy : x = y
      · subst hxy
        have hstep : isSubseq (x :: xs) (x :: ys) = isSubseq xs ys := by
          simp [isSubseq]
        rw [hstep, ih xs]
        exact List.cons_sublist_cons.symm
      · simp only [isSubseq, if_neg hxy]
        rw [ih (x :: xs)]
        constructor
        · intro h
          exact h.cons y
        · intro h
          cases h with
          | cons _ h' => exact h'
          | cons₂ => exact absurd rfl hxy

theorem fuzzy_match_append {text : String} {q : List Char} {c : Char} {s : Int}
    (h : fuzzy_match text (q ++ [c]) = some s) : ∃ t, fuzzy_match text q = some t := by
  unfold fuzzy_match at h ⊢
  by_cases hs : isSubseq ((q ++ [c]).map Char.toLower) (lowerChars text) = true
  · have hsub : List.Sublist ((q ++ [c]).map Char.toLower) (lowerChars text) :=
      (isSubseq_iff_sublist _ _).mp hs
    have hpre : List.Sublist (q.map Char.toLower) ((q ++ [c]).map Char.toLower) := by
      rw [List.map_append]
      exact List.sublist_append_left _ _
    have h2 : isSubseq (q.map Char.toLower) (lowerChars text) = true :=
      (isSubseq_iff_sublist _ _).mpr (hpre.trans hsub)
    rw [if_pos h2]
    exact ⟨_, rfl⟩
  · rw [if_neg hs] at h
    cases h

theorem filterMap_length_mono {α β γ : Type} (l : List α) (f : α → Option β) (g : α → Option γ)
    (h : ∀ a b, g a = some b → ∃ b', f a = some b') :
    (l.filterMap g).length ≤ (l.filterMap f).length := by
  induction l with
  | nil => simp
  | cons x xs ih =>
    rw [List.filterMap_cons, List.filterMap_cons]
    cases hg : g x with
    | none =>
      cases hf : f x with
      | none => exact ih
      | some b' =>
        simp only [List.length_cons]
        omega
    | some b =>
      obtain ⟨b', hf⟩ := h x b hg
      rw [hf]
      simp only [List.length_cons]
      omega

theorem filteredOrder_length_eq {ps : List ProjectInfo} {q : List Char}
    (h : ¬ q.isEmpty = true) :
    (filteredOrder ps q).length = (scoredProjects ps q).length := by
  unfold filteredOrder
  rw [if_neg h, List.length_map]
  exact (List.perm_insertionSort scoreGE _).length_eq

/-- C4: for every non-empty query, every index in `filteredOrder`
fuzzy-matches the query (the query characters appear as a
case-insensitive subsequence of `name ++ " " ++ directory`), and
appending one character to the query never increases the length of
`filteredOrder`. -/
theorem c4_filter_monotone (ps : List ProjectInfo) (q : List Char) (c : Char) :
    (¬ q.isEmpty = true → ∀ i ∈ filteredOrder ps q, ∃ p, ps[i]? = some p ∧
      isSubseq (q.map Char.toLower) (lowerChars (searchText p)) = true ∧
      ∃ s, fuzzy_match (searchText p) q = some s) ∧
    (filteredOrder ps (q ++ [c])).length ≤ (filteredOrder ps q).length := by
  constructor
  · intro hq i hi
    obtain ⟨s, hs⟩ := (mem_filteredOrder hq).mp hi
    obtain ⟨p, hp, hf⟩ := mem_scoredProjects.mp hs
    refine ⟨p, hp, ?_, ⟨s, hf⟩⟩
    unfold fuzzy_match at hf
    by_cases hs2 : isSubseq (q.map Char.toLower) (lowerChars (searchText p)) = true
    · exact hs2
    · rw [if_neg hs2] at hf
      cases hf
  · have hqc : ¬ (q ++ [c]).isEmpty = true := by simp
    rw [filteredOrder_length_eq hqc]
    have hmono : (scoredProjects ps (q ++ [c])).length ≤ (scoredProjects ps q).length := by
      apply filterMap_length_mono
      intro ip b hb
      rw [Option.map_eq_some'] at hb
      obtain ⟨s, hsome, -⟩ := hb
      obtain ⟨t, ht⟩ := fuzzy_match_append hsome
      exact ⟨(t, ip.1), by rw [ht]; rfl⟩
    by_cases hq : q.isEmpty = true
    · unfold filteredOrder
      rw [if_pos hq, List.length_range]
      calc (scoredProjects ps (q ++ [c])).length
          ≤ ps.enum.length := List.length_filterMap_le _ _
        _ = ps.length := List.enum_length
    · rw [filteredOrder_length_eq hq]
      exact hmono

/-- Witness for C4: index 1 is in the filtered view for query x and its
search text matches; the hypotheses are discharged at that input. -/
theorem c4_filter_monotone_witness :
    ∃ p, ([pA, pX] : List ProjectInfo)[1]? = some p ∧
      isSubseq ((['x']).map Char.toLower) (lowerChars (searchText p)) = true ∧
      ∃ s, fuzzy_match (searchText p) (['x']) = some s :=
  (c4_filter_monotone [pA, pX] (['x']) 'q').1 (by decide) 1 (by decide)

/-! ### Stability of the re-rank sort -/

theorem pair_sublist_of_pairwise_lt {l : List (Int × Nat)} {x y : Int × Nat}
    (hp : l.Pairwise (fun a b => a.2 < b.2)) (hx : x ∈ l) (hy : y ∈ l) (hxy : x.2 < y.2) :
    List.Sublist [x, y] l := by
  induction l with
  | nil => cases hx
  | cons a t ih =>
    rw [List.pairwise_cons] at hp
    obtain ⟨ha, hp'⟩ := hp
    rcases List.mem_cons.mp hx with rfl | hx'
    · rcases List.mem_cons.mp hy with rfl | hy'
      · omega
      · exact List.cons_sublist_cons.mpr (List.singleton_sublist.mpr hy')
    · rcases List.mem_cons.mp hy with rfl | hy'
      · have := ha x hx'
        omega
      · exact (ih hp' hx' hy').cons a

theorem indexOf_lt_of_pair_sublist {l : List Nat} {i j : Nat}
    (h : List.Sublist [i, j] l) (hnd : l.Nodup) : l.indexOf i < l.indexOf j := by
  induction l with
  | nil => simp at h
  | cons a t ih =>
    rw [List.nodup_cons] at hnd
    obtain ⟨hna, hnd'⟩ := hnd
    cases h with
    | cons _ h' =>
      have hi : i ∈ t := h'.subset (by simp)
      have hj : j ∈ t := h'.subset (by simp)
      have hai : (a == i) = false := by
        rw [beq_eq_false_iff_ne]
        intro he
        exact hna (he ▸ hi)
      have haj : (a == j) = false := by
        rw [beq_eq_false_iff_ne]
        intro he
        exact hna (he ▸ hj)
      rw [List.indexOf_cons, List.indexOf_cons, hai, haj]
      simp only [cond_false]
      have := ih h' hnd'
      omega
    | cons₂ _ h' =>
      have hj : j ∈ t := List.singleton_sublist.mp h'
      have hij : (i == j) = false := by
        rw [beq_eq_false_iff_ne]
        intro he
        exact hna (he ▸ hj)
      rw [List.indexOf_cons, List.indexOf_cons, hij]
      simp only [BEq.refl, cond_true, cond_false]
      omega

theorem fo_indexOf_lt_of_tie {ps : List ProjectInfo} {q : List Char} {s : Int} {i j : Nat}
    (hq : ¬ q.isEmpty = true) (hi : (s, i) ∈ scoredProjects ps q)
    (hj : (s, j) ∈ scoredProjects ps q) (hij : i < j) :
    (filteredOrder ps q).indexOf i < (filteredOrder ps q).indexOf j := by
  have hpair : List.Sublist [(s, i), (s, j)] (scoredProjects ps q) :=
    pair_sublist_of_pairwise_lt (scoredProjects_pairwise ps q) hi hj (by simpa using hij)
  have hsorted : List.Sublist [(s, i), (s, j)]
      ((scoredProjects ps q).insertionSort scoreGE) :=
    List.pair_sublist_insertionSort (r := scoreGE) (show scoreGE (s, i) (s, j) from le_refl s)
      hpair
  have hmap : List.Sublist [i, j]
      (((scoredProjects ps q).insertionSort scoreGE).map Prod.snd) := by
    have := hsorted.map Prod.snd
    simpa using this
  have hnd := filteredOrder_nodup ps q
  have hfo : filteredOrder ps q =
      ((scoredProjects ps q).insertionSort scoreGE).map Prod.snd := by
    unfold filteredOrder
    rw [if_neg hq]
  rw [hfo] at hnd ⊢
  exact indexOf_lt_of_pair_sublist hmap hnd

/-- C3: for every query and every pair of projects whose fuzzy-match
scores against the query are equal, their relative order in
`filteredOrder` equals their relative order in `allProjects` (the score
sort is stable). -/
theorem c3_stable_tiebreak (ps : List ProjectInfo) (q : List Char) (s : Int) (i j : Nat)
    (hq : ¬ q.isEmpty = true) (hi : (s, i) ∈ scoredProjects ps q)
    (hj : (s, j) ∈ scoredProjects ps q) (hne : i ≠ j) :
    ((filteredOrder ps q).indexOf i < (filteredOrder ps q).indexOf j ↔ i < j) := by
  constructor
  · intro hlt
    rcases Nat.lt_trichotomy i j with h | h | h
    · exact h
    · exact absurd h hne
    · have := fo_indexOf_lt_of_tie hq hj hi h
      omega
  · intro h
    exact fo_indexOf_lt_of_tie hq hi hj h

/-- Witness for C3: two projects with equal scores against query a keep
their input order in the filtered view. -/
theorem c3_stable_tiebreak_witness :
    ((filteredOrder [pT1, pT2] (['a'])).indexOf 0 < (filteredOrder [pT1, pT2] (['a'])).indexOf 1
      ↔ 0 < 1) :=
  c3_stable_tiebreak [pT1, pT2] (['a']) (-4) 0 1 (by decide) (by decide) (by decide) (by decide)

/-! ### Walker pruning -/

theorem walkForest_no_ignored : ∀ (cs : List FsEntry) (p : FsPath), p ∈ walkForest cs →
    ∀ c ∈ p, ¬ c ∈ IGNORED_DIRS := by
  intro cs
  induction cs using walkForest.induct with
  | case1 =>
    intro p hp
    simp [walkForest] at hp
  | case2 n content rest ih =>
    intro p hp
    simp only [walkForest] at hp
    rw [List.mem_append] at hp
    rcases hp with hp | hp
    · by_cases hn : IGNORED_DIRS.contains n
      · rw [if_pos hn] at hp
        cases hp
      · rw [if_neg hn] at hp
        have hpn : p = [n] := by simpa using hp
        subst hpn
        intro c hc
        have hcn : c = n := by simpa using hc
        subst hcn
        simpa using hn
    · exact ih p hp
  | case3 n cs' rest ih1 ih2 =>
    intro p hp
    simp only [walkForest] at hp
    rw [List.mem_append] at hp
    rcases hp with hp | hp
    · by_cases hn : IGNORED_DIRS.contains n
      · rw [if_pos hn] at hp
        cases hp
      · rw [if_neg hn] at hp
        have hnotmem : ¬ n ∈ IGNORED_DIRS := by simpa using hn
        rcases List.mem_cons.mp hp with rfl | hp'
        · intro c hc
          have hcn : c = n := by simpa using hc
          subst hcn
          exact hnotmem
        · rw [List.mem_map] at hp'
          obtain ⟨p', hp'', rfl⟩ := hp'
          intro c hc
          rcases List.mem_cons.mp hc with rfl | hc'
          · exact hnotmem
          · exact ih1 p' hp'' c hc'
    · exact ih2 p hp

theorem resolveManifest_directory {parse : String → Except String ProjectConfig}
    {content? : Option String} {p : FsPath} {rec : ProjectInfo}
    (h : (resolveManifest parse content? p).1 = some rec) : rec.directory = p.dropLast := by
  unfold resolveManifest at h
  cases content? with
  | none => cases h
  | some content =>
    cases hp : parse content with
    | error e => simp [hp] at h
    | ok config =>
      simp [hp] at h
      rw [← h]

theorem mem_scanRoot_records {parse : String → Except String ProjectConfig}
    {rootPath : FsPath} {t : FsEntry} {rec : ProjectInfo}
    (h : rec ∈ (scanRoot parse rootPath t).1) :
    ∃ rel ∈ manifestPaths t,
      (resolveManifest parse (readFile t rel) (rootPath ++ rel)).1 = some rec := by
  unfold scanRoot at h
  simp only [List.filterMap_map, List.mem_filterMap] at h
  obtain ⟨rel, hrel, hres⟩ := h
  exact ⟨rel, hrel, hres⟩

theorem manifestPaths_ne_nil {t : FsEntry} {rel : FsPath} (h : rel ∈ manifestPaths t) :
    rel ≠ [] := by
  unfold manifestPaths at h
  rcases List.mem_filter.mp h with ⟨-, hlast⟩
  intro he
  subst he
  simp at hlast

/-- C5: for every root directory, no path the walker yields passes
through an entry whose base name is in `IGNORED_DIRS` (the subtree is
pruned, never visited); in particular no manifest path does, and no
resolved record lies inside such a directory. -/
theorem c5_ignored_pruned (rootName : String) (cs : List FsEntry) :
    (∀ p ∈ walkPaths (FsEntry.dir rootName cs), ∀ c ∈ p, ¬ c ∈ IGNORED_DIRS) ∧
    (∀ p ∈ manifestPaths (FsEntry.dir rootName cs), ∀ c ∈ p, ¬ c ∈ IGNORED_DIRS) ∧
    (∀ (parse : String → Except String ProjectConfig) (rootPath : FsPath)
      (rec : ProjectInfo), rec ∈ (scanRoot parse rootPath (FsEntry.dir rootName cs)).1 →
      ∀ c ∈ rec.directory.drop rootPath.length, ¬ c ∈ IGNORED_DIRS) := by
  have h1 : ∀ p ∈ walkPaths (FsEntry.dir rootName cs), ∀ c ∈ p, ¬ c ∈ IGNORED_DIRS := by
    intro p hp
    exact walkForest_no_ignored cs p hp
  have h2 : ∀ p ∈ manifestPaths (FsEntry.dir rootName cs), ∀ c ∈ p, ¬ c ∈ IGNORED_DIRS := by
    intro p hp
    exact h1 p (List.mem_filter.mp hp).1
  refine ⟨h1, h2, ?_⟩
  intro parse rootPath rec hrec c hc
  obtain ⟨rel, hrel, hres⟩ := mem_scanRoot_records hrec
  have hdir : rec.directory = (rootPath ++ rel).dropLast := resolveManifest_directory hres
  have hne : rel ≠ [] := manifestPaths_ne_nil hrel
  have hsplit : (rootPath ++ rel).dropLast = rootPath ++ rel.dropLast := by
    rw [List.dropLast_append_of_ne_nil _ hne]
  rw [hdir, hsplit, List.drop_left] at hc
  have hsub : c ∈ rel := (List.dropLast_sublist rel).subset hc
  exact h2 rel hrel c hsub

/-- Witness for C5: in a root holding a manifest inside node_modules
beside a valid project, the only returned manifest path avoids every
ignored name. -/
theorem c5_ignored_pruned_witness :
    ∀ c ∈ ([aStr, manifestName] : FsPath), ¬ c ∈ IGNORED_DIRS := by
  have h := (c5_ignored_pruned rStr
    [FsEntry.dir nodeModulesStr [FsEntry.dir xStr [FsEntry.file manifestName okStr]],
     FsEntry.dir aStr [FsEntry.file manifestName okStr]]).2.1
  apply h [aStr, manifestName]
  simp only [manifestPaths, walkPaths, walkForest, IGNORED_DIRS, nodeModulesStr, buildStr,
    targetStr, distStr, outStr, aStr, xStr, manifestName, okStr]
  decide

/-! ### Resolver behavior -/

theorem manifestPaths_tReadFail :
    manifestPaths tReadFail = [[aStr, manifestName], [bStr, manifestName]] := by
  simp only [manifestPaths, walkPaths, walkForest, tReadFail, IGNORED_DIRS, nodeModulesStr,
    buildStr, targetStr, distStr, outStr, aStr, bStr, rStr, manifestName, okStr]
  decide

theorem readFile_tReadFail_a : readFile tReadFail [aStr, manifestName] = none := by
  simp only [readFile, readIn, tReadFail, aStr, bStr, rStr, manifestName, okStr]
  decide

theorem readFile_tReadFail_b : readFile tReadFail [bStr, manifestName] = some okStr := by
  simp only [readFile, readIn, tReadFail, aStr, bStr, rStr, manifestName, okStr]
  decide

theorem scanRoot_tReadFail :
    scanRoot parseOkOnly [rStr] tReadFail =
      ([{ name := bStr, language := unknownStr, directory := [rStr, bStr] }], []) := by
  unfold scanRoot
  rw [manifestPaths_tReadFail]
  simp only [List.map_cons, List.map_nil]
  rw [readFile_tReadFail_a, readFile_tReadFail_b]
  simp only [resolveManifest, parseOkOnly, okStr, if_true]
  decide

/-- Counterexample to C7 as stated: the manifest entry a/.dexproject is
a directory, so its read fails; the record is dropped but NO diagnostic
is emitted (the diagnostics list is empty), although the other manifest
is still resolved. -/
theorem c7_counterexample :
    readFile tReadFail [aStr, manifestName] = none ∧
    [aStr, manifestName] ∈ manifestPaths tReadFail ∧
    (scanRoot parseOkOnly [rStr] tReadFail).2 = [] ∧
    ((scanRoot parseOkOnly [rStr] tReadFail).1).length = 1 := by
  refine ⟨readFile_tReadFail_a, ?_, ?_, ?_⟩
  · rw [manifestPaths_tReadFail]
    decide
  · rw [scanRoot_tReadFail]
  · rw [scanRoot_tReadFail]
    rfl

/-- C7 (amended): a manifest whose read fails is dropped silently (no
diagnostic); a manifest whose parse fails is dropped and a diagnostic
naming the path and the cause is emitted; each manifest is resolved
independently of all others, so one failure never affects the rest. -/
theorem c7_amended_resolution (parse : String → Except String ProjectConfig) (p : FsPath) :
    (resolveManifest parse none p = (none, [])) ∧
    (∀ s e, parse s = Except.error e →
      (resolveManifest parse (some s) p).1 = none ∧
      (resolveManifest parse (some s) p).2 =
        [parseFailPrefix ++ pathString p ++ ": " ++ e]) ∧
    (∀ (rootPath : FsPath) (t : FsEntry),
      (scanRoot parse rootPath t).1 = (manifestPaths t).filterMap
        (fun rel => (resolveManifest parse (readFile t rel) (rootPath ++ rel)).1)) := by
  refine ⟨rfl, ?_, ?_⟩
  · intro s e he
    constructor <;> simp [resolveManifest, he]
  · intro rootPath t
    show List.filterMap Prod.fst ((manifestPaths t).map
        (fun rel => resolveManifest parse (readFile t rel) (rootPath ++ rel))) =
      (manifestPaths t).filterMap
        (fun rel => (resolveManifest parse (readFile t rel) (rootPath ++ rel)).1)
    rw [List.filterMap_map]
    rfl

/-- Witness for the amended C7: a concrete parse failure yields no
record and exactly the diagnostic naming the path and the cause. -/
theorem c7_amended_resolution_witness :
    (resolveManifest parseOkOnly (some badStr) [rStr, aStr, manifestName]).1 = none ∧
    (resolveManifest parseOkOnly (some badStr) [rStr, aStr, manifestName]).2 =
      [parseFailPrefix ++ pathString [rStr, aStr, manifestName] ++ ": " ++ badStr] :=
  (c7_amended_resolution parseOkOnly [rStr, aStr, manifestName]).2.1 badStr badStr rfl

/-- C8: a manifest whose parse succeeds resolves to a record whose
`language` is the uppercase form of the authored value, and to the
sentinel UNKNOWN when the field is absent. -/
theorem c8_language_normalized (parse : String → Except String ProjectConfig) (p : FsPath)
    (s : String) (config : ProjectConfig) (h : parse s = Except.ok config) :
    ∃ rec, (resolveManifest parse (some s) p).1 = some rec ∧
      (∀ l, config.language = some l → rec.language = toUpperStr l) ∧
      (config.language = none → rec.language = unknownStr) := by
  refine ⟨{ name := config.name.getD ((p.dropLast.getLast?).getD emptyStr)
            language := toUpperStr (config.language.getD unknownStr)
            directory := p.dropLast }, ?_, ?_, ?_⟩
  · simp [resolveManifest, h]
  · intro l hl
    show toUpperStr (config.language.getD unknownStr) = toUpperStr l
    rw [hl]
    rfl
  · intro hl
    show toUpperStr (config.language.getD unknownStr) = unknownStr
    rw [hl]
    decide

/-- Witness for C8: a manifest authoring language rust resolves through
the uppercase normalization. -/
theorem c8_language_normalized_witness :
    ∃ rec, (resolveManifest (fun _ => Except.ok { language := some rustLC, name := none })
        (some okStr) [rStr, aStr, manifestName]).1 = some rec ∧
      (∀ l, ({ language := some rustLC, name := none } : ProjectConfig).language = some l →
        rec.language = toUpperStr l) ∧
      (({ language := some rustLC, name := none } : ProjectConfig).language = none →
        rec.language = unknownStr) :=
  c8_language_normalized (fun _ => Except.ok { language := some rustLC, name := none })
    [rStr, aStr, manifestName] okStr { language := some rustLC, name := none } rfl

/-! ### Uniqueness of scanned directories -/

theorem walkForest_ne_nil : ∀ (cs : List FsEntry) (p : FsPath), p ∈ walkForest cs → p ≠ [] := by
  intro cs
  induction cs using walkForest.induct with
  | case1 =>
    intro p hp
    simp [walkForest] at hp
  | case2 n content rest ih =>
    intro p hp
    simp only [walkForest] at hp
    rw [List.mem_append] at hp
    rcases hp with hp | hp
    · split at hp
      · cases hp
      · have hpn : p = [n] := by simpa using hp
        subst hpn
        simp
    · exact ih p hp
  | case3 n cs' rest ih1 ih2 =>
    intro p hp
    simp only [walkForest] at hp
    rw [List.mem_append] at hp
    rcases hp with hp | hp
    · split at hp
      · cases hp
      · rcases List.mem_cons.mp hp with rfl | hp'
        · simp
        · rw [List.mem_map] at hp'
          obtain ⟨p', -, rfl⟩ := hp'
          simp
    · exact ih2 p hp

theorem walkForest_head : ∀ (cs : List FsEntry) (p : FsPath), p ∈ walkForest cs →
    ∃ e ∈ cs, p.head? = some (FsEntry.name e) := by
  intro cs
  induction cs using walkForest.induct with
  | case1 =>
    intro p hp
    simp [walkForest] at hp
  | case2 n content rest ih =>
    intro p hp
    simp only [walkForest] at hp
    rw [List.mem_append] at hp
    rcases hp with hp | hp
    · split at hp
      · cases hp
      · have hpn : p = [n] := by simpa using hp
        subst hpn
        exact ⟨FsEntry.file n content, by simp, rfl⟩
    · obtain ⟨e, he, hh⟩ := ih p hp
      exact ⟨e, by simp [he], hh⟩
  | case3 n cs' rest ih1 ih2 =>
    intro p hp
    simp only [walkForest] at hp
    rw [List.mem_append] at hp
    rcases hp with hp | hp
    · split at hp
      · cases hp
      · rcases List.mem_cons.mp hp with rfl | hp'
        · exact ⟨FsEntry.dir n cs', by simp, rfl⟩
        · rw [List.mem_map] at hp'
          obtain ⟨p', -, rfl⟩ := hp'
          exact ⟨FsEntry.dir n cs', by simp, rfl⟩
    · obtain ⟨e, he, hh⟩ := ih2 p hp
      exact ⟨e, by simp [he], hh⟩

theorem nodupB_iff (l : List String) : nodupB l = true ↔ l.Nodup := by
  induction l with
  | nil => simp [nodupB]
  | cons x xs ih =>
    simp [nodupB, List.nodup_cons, ih, List.contains]

theorem walkForest_nodup : ∀ (cs : List FsEntry),
    nodupB (cs.map FsEntry.name) = true → wfbForest cs = true → (walkForest cs).Nodup := by
  intro cs
  induction cs using walkForest.induct with
  | case1 =>
    intro _ _
    simp [walkForest]
  | case2 n content rest ih =>
    intro hnd hwf
    simp only [List.map_cons, nodupB, Bool.and_eq_true, FsEntry.name] at hnd
    obtain ⟨hcont, hnd'⟩ := hnd
    simp only [wfbForest] at hwf
    simp only [walkForest]
    by_cases hn : IGNORED_DIRS.contains n
    · rw [if_pos hn]
      simpa using ih hnd' hwf
    · rw [if_neg hn]
      refine List.Nodup.append (by simp) (ih hnd' hwf) ?_
      intro p hp1 hp2
      have hpn : p = [n] := by simpa using hp1
      subst hpn
      obtain ⟨e, he, hh⟩ := walkForest_head rest _ hp2
      simp only [List.head?_cons, Option.some.injEq] at hh
      have : FsEntry.name e ∈ rest.map FsEntry.name := List.mem_map_of_mem _ he
      rw [← hh] at this
      have hnm : ¬ n ∈ rest.map FsEntry.name := by
        intro hmem
        have h1 : (rest.map FsEntry.name).contains n = true := by
          simpa [List.contains] using List.elem_eq_true_of_mem hmem
        rw [h1] at hcont
        simp at hcont
      exact hnm this
  | case3 n cs' rest ih1 ih2 =>
    intro hnd hwf
    simp only [List.map_cons, nodupB, Bool.and_eq_true, FsEntry.name] at hnd
    obtain ⟨hcont, hnd'⟩ := hnd
    simp only [wfbForest, Bool.and_eq_true] at hwf
    obtain ⟨⟨hnd'', hwf''⟩, hwf'⟩ := hwf
    simp only [walkForest]
    by_cases hn : IGNORED_DIRS.contains n
    · rw [if_pos hn]
      rw [List.nil_append]
      exact ih2 hnd' hwf'
    · rw [if_neg hn]
      have hnm : ¬ n ∈ rest.map FsEntry.name := by
        intro hmem
        have h1 : (rest.map FsEntry.name).contains n = true := by
          simpa [List.contains] using List.elem_eq_true_of_mem hmem
        rw [h1] at hcont
        simp at hcont
      refine List.Nodup.append ?_ (ih2 hnd' hwf') ?_
      · rw [List.nodup_cons]
        refine ⟨?_, ?_⟩
        · intro hmem
          rw [List.mem_map] at hmem
          obtain ⟨p', hp', he⟩ := hmem
          have hne := walkForest_ne_nil cs' p' hp'
          cases p' with
          | nil => exact hne rfl
          | cons a t => simp at he
        · exact (ih1 hnd'' hwf'').map (fun a b hab => by simpa using hab)
      · intro p hp1 hp2
        obtain ⟨e, he, hh⟩ := walkForest_head rest _ hp2
        have hphead : p.head? = some n := by
          rcases List.mem_cons.mp hp1 with rfl | hp'
          · rfl
          · rw [List.mem_map] at hp'
            obtain ⟨p', -, rfl⟩ := hp'
            rfl
        rw [hphead] at hh
        simp only [Option.some.injEq] at hh
        have : FsEntry.name e ∈ rest.map FsEntry.name := List.mem_map_of_mem _ he
        rw [← hh] at this
        exact hnm this

theorem walkPaths_nodup (t : FsEntry) (h : wfb t = true) : (walkPaths t).Nodup := by
  cases t with
  | file n c => simp [walkPaths]
  | dir n cs =>
    unfold wfb at h
    rw [Bool.and_eq_true] at h
    exact walkForest_nodup cs h.1 h.2

theorem manifestPaths_nodup (t : FsEntry) (h : wfb t = true) : (manifestPaths t).Nodup :=
  (walkPaths_nodup t h).filter _

theorem manifestPaths_last {t : FsEntry} {rel : FsPath} (h : rel ∈ manifestPaths t) :
    rel.getLast? = some manifestName := by
  unfold manifestPaths at h
  have h2 := (List.mem_filter.mp h).2
  simpa using h2

theorem nodup_filterMap_on {α β : Type} {l : List α} {f : α → Option β}
    (hl : l.Nodup)
    (hinj : ∀ a ∈ l, ∀ a' ∈ l, ∀ b, f a = some b → f a' = some b → a = a') :
    (l.filterMap f).Nodup := by
  induction l with
  | nil => simp
  | cons x xs ih =>
    rw [List.filterMap_cons]
    rw [List.nodup_cons] at hl
    obtain ⟨hx, hxs⟩ := hl
    have hinj' : ∀ a ∈ xs, ∀ a' ∈ xs, ∀ b, f a = some b → f a' = some b → a = a' :=
      fun a ha a' ha' b h1 h2 => hinj a (by simp [ha]) a' (by simp [ha']) b h1 h2
    cases hf : f x with
    | none => exact ih hxs hinj'
    | some b =>
      rw [List.nodup_cons]
      refine ⟨?_, ih hxs hinj'⟩
      intro hb
      rw [List.mem_filterMap] at hb
      obtain ⟨a, ha, hfa⟩ := hb
      have hxa : x = a := hinj x (by simp) a (by simp [ha]) b hf hfa
      exact hx (hxa ▸ ha)

theorem scanRoot_records (parse : String → Except String ProjectConfig)
    (rootPath : FsPath) (t : FsEntry) :
    (scanRoot parse rootPath t).1 = (manifestPaths t).filterMap
      (fun rel => (resolveManifest parse (readFile t rel) (rootPath ++ rel)).1) := by
  show List.filterMap Prod.fst ((manifestPaths t).map
      (fun rel => resolveManifest parse (readFile t rel) (rootPath ++ rel))) =
    (manifestPaths t).filterMap
      (fun rel => (resolveManifest parse (readFile t rel) (rootPath ++ rel)).1)
  rw [List.filterMap_map]
  rfl

/-- C9 (amended): on a single well-formed root (sibling base names
distinct inside every directory, as a real filesystem guarantees), each
record comes from exactly one manifest path and no two records share a
`directory`; across overlapping or duplicated roots the uniqueness can
fail. -/
theorem c9_unique_directories (parse : String → Except String ProjectConfig)
    (rootPath : FsPath) (t : FsEntry) (hwf : wfb t = true) :
    (manifestPaths t).Nodup ∧
    (((scanRoot parse rootPath t).1).map ProjectInfo.directory).Nodup := by
  have hmp := manifestPaths_nodup t hwf
  refine ⟨hmp, ?_⟩
  rw [scanRoot_records, List.map_filterMap]
  apply nodup_filterMap_on hmp
  intro rel hrel rel' hrel' b h1 h2
  rw [Option.map_eq_some'] at h1 h2
  obtain ⟨rec1, hr1, hb1⟩ := h1
  obtain ⟨rec2, hr2, hb2⟩ := h2
  have hd1 : rec1.directory = (rootPath ++ rel).dropLast := resolveManifest_directory hr1
  have hd2 : rec2.directory = (rootPath ++ rel').dropLast := resolveManifest_directory hr2
  have hne1 : rel ≠ [] := manifestPaths_ne_nil hrel
  have hne2 : rel' ≠ [] := manifestPaths_ne_nil hrel'
  have heq : rootPath ++ rel.dropLast = rootPath ++ rel'.dropLast := by
    calc rootPath ++ rel.dropLast
        = (rootPath ++ rel).dropLast := (List.dropLast_append_of_ne_nil _ hne1).symm
      _ = b := by rw [← hd1, hb1]
      _ = (rootPath ++ rel').dropLast := by rw [← hb2, hd2]
      _ = rootPath ++ rel'.dropLast := List.dropLast_append_of_ne_nil _ hne2
  have hdl : rel.dropLast = rel'.dropLast := List.append_cancel_left heq
  have hl1 : rel.dropLast ++ [manifestName] = rel :=
    List.dropLast_append_getLast? manifestName (Option.mem_def.mpr (manifestPaths_last hrel))
  have hl2 : rel'.dropLast ++ [manifestName] = rel' :=
    List.dropLast_append_getLast? manifestName (Option.mem_def.mpr (manifestPaths_last hrel'))
  rw [← hl1, ← hl2, hdl]

/-- Witness for the amended C9: a well-formed root with two projects
yields records with distinct directories. -/
theorem c9_unique_directories_witness :
    (manifestPaths tTwo).Nodup ∧
    (((scanRoot parseOkOnly [rStr] tTwo).1).map ProjectInfo.directory).Nodup :=
  c9_unique_directories parseOkOnly [rStr] tTwo (by
    simp only [wfb, wfbForest, nodupB, tTwo, FsEntry.name, List.map_cons, List.map_nil,
      aStr, bStr, rStr, manifestName, okStr]
    decide)

theorem scanRoot_tDup :
    scanRoot parseOkOnly [rStr] tDup =
      ([{ name := aStr, language := unknownStr, directory := [rStr, aStr] }], []) := by
  unfold scanRoot
  have hm : manifestPaths tDup = [[aStr, manifestName]] := by
    simp only [manifestPaths, walkPaths, walkForest, tDup, IGNORED_DIRS, nodeModulesStr,
      buildStr, targetStr, distStr, outStr, aStr, rStr, manifestName, okStr]
    decide
  rw [hm]
  simp only [List.map_cons, List.map_nil]
  have hr : readFile tDup [aStr, manifestName] = some okStr := by
    simp only [readFile, readIn, tDup, aStr, rStr, manifestName, okStr]
    decide
  rw [hr]
  simp only [resolveManifest, parseOkOnly, okStr, if_true]
  decide

/-- Counterexample to C9 as stated: scanning the same root path twice
(a legal configuration input) returns two records with the same
`directory`, so `directory` is not unique across the final list. -/
theorem c9_counterexample :
    ((find_project_files parseOkOnly [([rStr], tDup), ([rStr], tDup)]).1).map
        ProjectInfo.directory = [[rStr, aStr], [rStr, aStr]] ∧
    ¬ (((find_project_files parseOkOnly [([rStr], tDup), ([rStr], tDup)]).1).map
        ProjectInfo.directory).Nodup := by
  constructor
  · simp only [find_project_files, List.map_cons, List.map_nil, scanRoot_tDup]
    decide
  · simp only [find_project_files, List.map_cons, List.map_nil, scanRoot_tDup]
    decide
